import Mathlib

/-!
Verification of the EMD steganography codec (EMD_stegano.py).

The Python source is shallowly embedded below: pixel samples are
integers (`Int`, Python ints), bit streams are `List Nat` of 0/1
values, byte strings are `List Nat` of values below 256, and the
grayscale image is a width/height pair with a total pixel function.
Python's `%` on a positive modulus agrees with `Int.emod`; `bin(v)`,
`str.zfill` and list slicing are modelled directly.
-/

set_option maxRecDepth 100000

/-- Python `int(s, 2)` on a string of bits, most significant first. -/
def bitsToNat (l : List Nat) : Nat := l.foldl (fun a b => 2 * a + b) 0

/-- Little-endian binary digits of `v`, written with a fuel argument
(any fuel at least `v` is exact) so that the kernel can evaluate it. -/
def bitsLE : Nat → Nat → List Nat
  | 0, _ => []
  | fuel + 1, v => if v = 0 then [] else v % 2 :: bitsLE fuel (v / 2)

/-- Python `bin(v)[2:]`: binary digits of `v`, most significant first,
with no leading zeros, and `[0]` for `v = 0`. -/
def binNat (v : Nat) : List Nat :=
  if v = 0 then [0] else (bitsLE v v).reverse

/-- Floor of the base-2 logarithm, with a fuel argument (any fuel at
least `v` is exact). -/
def flog2 : Nat → Nat → Nat
  | 0, _ => 0
  | fuel + 1, v => if v < 2 then 0 else flog2 fuel (v / 2) + 1

/-- Python `str.zfill w` on a digit string: pad on the left with zeros
up to length `w`; a longer string is returned unchanged. -/
def zfill (w : Nat) (l : List Nat) : List Nat :=
  List.replicate (w - l.length) 0 ++ l

/-- Zero padding on the right up to length `k`, as in
`group.extend([0] * (bits_per_digit - len(group)))` in `SECRET.get_digits`. -/
def padTo (k : Nat) (l : List Nat) : List Nat :=
  l ++ List.replicate (k - l.length) 0

/-- `math.ceil(a / b)` for natural `a`, positive `b`. -/
def ceilDiv (a b : Nat) : Nat := (a + (b - 1)) / b

/-- Helper normal form for proofs: the most-significant-first binary
expansion of `v` with exactly `w` digits. -/
def toBits : Nat → Nat → List Nat
  | 0, _ => []
  | w + 1, v => v / 2 ^ w :: toBits w (v % 2 ^ w)

/-- `bits_per_digit = math.floor(math.log2(2 * n + 1))` (class DIGIT / EMD);
equal to `Nat.log 2 (2 * n + 1)` (proved below). -/
def bits_per_digit (n : Nat) : Nat := flog2 (2 * n + 1) (2 * n + 1)

/-- `DIGIT.convert_to_bits`: `bin(self.value)[2:].zfill(self.bits_per_digit)`. -/
def convert_to_bits (n : Nat) (v : Nat) : List Nat :=
  zfill (bits_per_digit n) (binNat v)

/-- `SECRET.bytes_to_bits`: each byte expands to `bin(char)[2:].zfill(8)`. -/
def bytes_to_bits (bs : List Nat) : List Nat :=
  (bs.map (fun c => zfill 8 (binNat c))).flatten

/-- `SECRET.bits_to_bytes`: consume complete groups of 8 bits
(`range(len(bit_list) // 8)`), dropping a trailing partial group. -/
def bits_to_bytes (l : List Nat) : List Nat :=
  (List.range (l.length / 8)).map (fun i => bitsToNat ((l.drop (i * 8)).take 8))

/-- `SECRET.__init__` on an array of bits: `range(0, len(data), 8)`,
each chunk (the last one possibly short, never padded) becomes a byte. -/
def bits_chunks_to_bytes (l : List Nat) : List Nat :=
  (List.range (ceilDiv l.length 8)).map (fun i => bitsToNat ((l.drop (i * 8)).take 8))

/-- `SECRET.get_digits`: split the bit stream into groups of
`bits_per_digit` bits (`range(0, len(bits), bpd)`), zero-pad the final
short group on the right, and read each group as an unsigned value. -/
def secret_digit_vals (bpd : Nat) (bits : List Nat) : List Nat :=
  (List.range (ceilDiv bits.length bpd)).map
    (fun j => bitsToNat (padTo bpd ((bits.drop (j * bpd)).take bpd)))

/-- Grayscale pixel plane: a Pillow image of `IMAGE`, with the pixel
access object modelled as a total function on coordinates.  Inside the
rectangle `[0,width) x [0,height)` it agrees with the Python pixel
buffer; the Python accessor raises outside it, so theorems that touch
pixels restrict their inputs to in-bounds accesses. -/
structure IMAGE where
  width : Nat
  height : Nat
  pix : Nat × Nat → Int

/-- `IMAGE.get_xy`: `line = width // n; y = index // line; x = (index % line) * n`. -/
def get_xy (img : IMAGE) (index n : Nat) : Nat × Nat :=
  ((index % (img.width / n)) * n, index / (img.width / n))

/-- `STEGO_GROUP.get_pixels`: the `n` samples at `(x + i, y)` for `i < n`. -/
def get_pixels (img : IMAGE) (x y n : Nat) : List Int :=
  (List.range n).map (fun i => img.pix (x + i, y))

/-- `IMAGE.set_pixel`: point update of the pixel buffer. -/
def set_pixel (img : IMAGE) (x y : Nat) (v : Int) : IMAGE :=
  { img with pix := fun q => if q.1 = x ∧ q.2 = y then v else img.pix q }

/-- `STEGO_GROUP.set_pixels`: write `new_values[i]` at `(x + i, y)` for `i < n`. -/
def set_pixels (img : IMAGE) (x y n : Nat) (vals : List Int) : IMAGE :=
  (List.range n).foldl (fun im i => set_pixel im (x + i) y (vals.getD i 0)) img

/-- The pixel list of the stego group at digit index `index` (class STEGO_GROUP). -/
def stego_pixels (img : IMAGE) (index n : Nat) : List Int :=
  get_pixels img (get_xy img index n).1 (get_xy img index n).2 n

/-- Writing a stego group back through `STEGO_GROUP.set_pixels`. -/
def set_stego (img : IMAGE) (index n : Nat) (vals : List Int) : IMAGE :=
  set_pixels img (get_xy img index n).1 (get_xy img index n).2 n vals

/-- The weighted sum `SUM (i+1) * pixels[i]`, with `w` the weight of the
head (`STEGO_GROUP.get_digit` runs it with `w = 1`). -/
def wsumFrom : Nat → List Int → Int
  | _, [] => 0
  | w, x :: xs => (w : Int) * x + wsumFrom (w + 1) xs

/-- `STEGO_GROUP.get_digit`: the weighted sum modulo `2 * n + 1`, where
`n` is the group size. -/
def get_digit (g : List Int) : Int :=
  wsumFrom 1 g % (2 * (g.length : Int) + 1)

/-- Pixels sitting at a saturation boundary (value 0 or 255); the count
of such samples bounds the depth of the `EMD.embed` recursion. -/
def satCount (g : List Int) : Nat :=
  g.countP (fun v => decide (v = 0 ∨ v = 255))

/-- `s = (secret_digit.value - new_Sg.get_digit().value) % self.base` in
`EMD.embed`; Python `%` with a positive modulus is `Int.emod`. -/
def sVal (g : List Int) (t : Int) : Int :=
  (t - get_digit g) % (2 * (g.length : Int) + 1)

/-- `pos = s - 1`, the pixel adjusted in the increment branch of `EMD.embed`. -/
def posInc (g : List Int) (t : Int) : Nat := (sVal g t - 1).toNat

/-- `pos = self.base - s - 1`, the pixel adjusted in the decrement branch. -/
def posDec (g : List Int) (t : Int) : Nat :=
  ((2 * (g.length : Int) + 1) - sVal g t - 1).toNat

/-- `EMD.embed`, with the recursion depth made explicit by a fuel
argument; `none` means the fuel ran out before the recursion finished.
Mirrors the source: if the digit already matches, return the group;
otherwise `s = (target - digit) % base`; for `s <= n` increment pixel
`s - 1` (or, at a 255 boundary, decrement it and recurse); for `s > n`
decrement pixel `base - s - 1` (or, at a 0 boundary, increment it and
recurse). -/
def embedF : Nat → List Int → Int → Option (List Int)
  | 0, _, _ => none
  | fuel + 1, g, t =>
    if get_digit g = t then some g
    else if sVal g t ≤ (g.length : Int) then
      if g.getD (posInc g t) 0 = 255 then
        embedF fuel (g.set (posInc g t) (g.getD (posInc g t) 0 - 1)) t
      else some (g.set (posInc g t) (g.getD (posInc g t) 0 + 1))
    else
      if g.getD (posDec g t) 0 = 0 then
        embedF fuel (g.set (posDec g t) (g.getD (posDec g t) 0 + 1)) t
      else some (g.set (posDec g t) (g.getD (posDec g t) 0 - 1))

/-- `EMD.embed` as a total function: `n + 1` units of fuel always
suffice (proved below), and on fuel exhaustion the input group is
returned as a default. -/
def embed (g : List Int) (t : Int) : List Int :=
  (embedF (g.length + 1) g t).getD g

/-- `EMD.hide` inner loop: for each digit index in increasing order,
read the carrier group, embed the digit, write the group back. -/
def hideFrom (n : Nat) : List Nat → Nat → IMAGE → IMAGE
  | [], _, img => img
  | t :: ts, idx, img =>
    hideFrom n ts (idx + 1) (set_stego img idx n (embed (stego_pixels img idx n) (t : Int)))

/-- `EMD.hide`: `required_digits = ceil(len(bits) / bits_per_digit)`;
raise (`none`) if `width * height < required_digits * n`, otherwise
embed the digit sequence of the secret.  The Python check precedes
every pixel write, so a failed hide mutates nothing. -/
def hide (S : List Nat) (img : IMAGE) (n : Nat) : Option IMAGE :=
  let bits := bytes_to_bits S
  let required := ceilDiv bits.length (bits_per_digit n)
  if img.width * img.height < required * n then none
  else some (hideFrom n (secret_digit_vals (bits_per_digit n) bits) 0 img)

/-- `IMAGE.get_digits`: read `ceil(length * 8 / bits_per_digit)` stego
groups in increasing index order and take each group's digit. -/
def image_digits (img : IMAGE) (n L : Nat) : List Int :=
  (List.range (ceilDiv (L * 8) (bits_per_digit n))).map
    (fun idx => get_digit (stego_pixels img idx n))

/-- The bit stream built by `EMD.extract`: concatenate
`DIGIT.convert_to_bits` over the extracted digits, then keep exactly
`data_length * 8` bits. -/
def extract_bits (img : IMAGE) (n L : Nat) : List Nat :=
  (((image_digits img n L).map (fun d => convert_to_bits n d.toNat)).flatten).take (L * 8)

/-- `EMD.extract`: the extracted byte string (the `bytes` field of the
`SECRET` built from the truncated bit stream). -/
def extract (img : IMAGE) (n L : Nat) : List Nat :=
  bits_chunks_to_bytes (extract_bits img n L)

example : get_digit [(10 : Int), 20] = 0 := by decide
example : embed [(10 : Int), 20] 3 = [10, 19] := by decide
example : embed [(255 : Int), 255] 1 = [253, 254] := by decide
example : embed [(255 : Int), 0] 1 = [254, 1] := by decide
example : convert_to_bits 2 4 = [1, 0, 0] := by decide

/-! ### Bridges for the fuel-based helpers -/

theorem bitsLE_eq_digits : ∀ fuel v, v ≤ fuel → bitsLE fuel v = Nat.digits 2 v := by
  intro fuel
  induction fuel with
  | zero =>
    intro v hv
    have : v = 0 := Nat.le_zero.mp hv
    subst this
    simp [bitsLE]
  | succ f ih =>
    intro v hv
    by_cases h0 : v = 0
    · subst h0; simp [bitsLE]
    · rw [bitsLE, if_neg h0,
        Nat.digits_def' (by norm_num : (1:Nat) < 2) (Nat.pos_of_ne_zero h0),
        ih (v / 2) (by omega)]

theorem flog2_eq_log : ∀ fuel v, v ≤ fuel → flog2 fuel v = Nat.log 2 v := by
  intro fuel
  induction fuel with
  | zero =>
    intro v hv
    have : v = 0 := Nat.le_zero.mp hv
    subst this
    simp [flog2]
  | succ f ih =>
    intro v hv
    by_cases h2 : v < 2
    · rw [flog2, if_pos h2]
      exact (Nat.log_eq_zero_iff.mpr (Or.inl h2)).symm
    · rw [flog2, if_neg h2, ih (v / 2) (by omega)]
      have hd := Nat.log_div_base 2 v
      have hp : 0 < Nat.log 2 v := Nat.log_pos (by norm_num) (by omega)
      omega

theorem bits_per_digit_eq (n : Nat) : bits_per_digit n = Nat.log 2 (2 * n + 1) :=
  flog2_eq_log _ _ le_rfl

theorem bits_per_digit_pos (n : Nat) (hn : 1 ≤ n) : 1 ≤ bits_per_digit n := by
  rw [bits_per_digit_eq]
  exact Nat.log_pos (by norm_num) (by omega)

theorem pow_bits_per_digit_le (n : Nat) : 2 ^ bits_per_digit n ≤ 2 * n + 1 := by
  rw [bits_per_digit_eq]
  exact Nat.pow_log_le_self 2 (by omega)

/-! ### Bit-string arithmetic -/

theorem bitsToNat_go (l : List Nat) :
    ∀ a : Nat, l.foldl (fun x b => 2 * x + b) a = a * 2 ^ l.length + bitsToNat l := by
  induction l with
  | nil => intro a; simp [bitsToNat]
  | cons x xs ih =>
    intro a
    show xs.foldl _ (2 * a + x) = _
    rw [ih (2 * a + x)]
    have hx : bitsToNat (x :: xs) = x * 2 ^ xs.length + bitsToNat xs := by
      show xs.foldl _ (2 * 0 + x) = _
      rw [ih (2 * 0 + x)]
      ring_nf
    rw [hx]
    simp [List.length_cons, pow_succ]
    ring

theorem bitsToNat_cons (b : Nat) (l : List Nat) :
    bitsToNat (b :: l) = b * 2 ^ l.length + bitsToNat l := by
  show l.foldl _ (2 * 0 + b) = _
  rw [bitsToNat_go l (2 * 0 + b)]
  ring_nf

theorem bitsToNat_append_one (l : List Nat) (b : Nat) :
    bitsToNat (l ++ [b]) = 2 * bitsToNat l + b := by
  unfold bitsToNat
  rw [List.foldl_append]
  rfl

theorem bitsToNat_lt (l : List Nat) (h : ∀ b ∈ l, b ≤ 1) :
    bitsToNat l < 2 ^ l.length := by
  induction l with
  | nil => simp [bitsToNat]
  | cons x xs ih =>
    have hx : x ≤ 1 := h x (by simp)
    have hxs := ih (fun b hb => h b (by simp [hb]))
    rw [bitsToNat_cons]
    have : (2:Nat) ^ (x :: xs).length = 2 * 2 ^ xs.length := by
      simp [List.length_cons, pow_succ]; ring
    rw [this]
    have h2 : x * 2 ^ xs.length ≤ 2 ^ xs.length := by
      calc x * 2 ^ xs.length ≤ 1 * 2 ^ xs.length := by
            exact Nat.mul_le_mul_right _ hx
        _ = 2 ^ xs.length := one_mul _
    omega

theorem toBits_length : ∀ w v, (toBits w v).length = w := by
  intro w
  induction w with
  | zero => intro v; simp [toBits]
  | succ u ih => intro v; simp [toBits, ih]

theorem bitsToNat_toBits : ∀ w v, v < 2 ^ w → bitsToNat (toBits w v) = v := by
  intro w
  induction w with
  | zero =>
    intro v hv
    have : v = 0 := by simpa using hv
    simp [toBits, bitsToNat, this]
  | succ u ih =>
    intro v hv
    rw [toBits, bitsToNat_cons, toBits_length, ih (v % 2 ^ u) (Nat.mod_lt _ (Nat.pos_pow_of_pos u (by norm_num)))]
    have := Nat.div_add_mod v (2 ^ u)
    linarith [this]

theorem toBits_bits : ∀ w v, v < 2 ^ w → ∀ b ∈ toBits w v, b ≤ 1 := by
  intro w
  induction w with
  | zero => intro v _ b hb; simp [toBits] at hb
  | succ u ih =>
    intro v hv b hb
    rw [toBits] at hb
    rcases List.mem_cons.mp hb with h | h
    · subst h
      have hp : 0 < 2 ^ u := Nat.pos_pow_of_pos u (by norm_num)
      have : v < 2 * 2 ^ u := by
        have : (2:Nat) ^ (u + 1) = 2 * 2 ^ u := by rw [pow_succ]; ring
        omega
      have := Nat.div_lt_of_lt_mul (by omega : v < 2 ^ u * 2)
      omega
    · exact ih (v % 2 ^ u) (Nat.mod_lt _ (Nat.pos_pow_of_pos u (by norm_num))) b h

theorem toBits_bitsToNat (l : List Nat) (h : ∀ b ∈ l, b ≤ 1) :
    toBits l.length (bitsToNat l) = l := by
  induction l with
  | nil => simp [toBits]
  | cons x xs ih =>
    have hx : x ≤ 1 := h x (by simp)
    have hxs : ∀ b ∈ xs, b ≤ 1 := fun b hb => h b (by simp [hb])
    have hlt := bitsToNat_lt xs hxs
    rw [List.length_cons, toBits, bitsToNat_cons]
    have hdiv : (x * 2 ^ xs.length + bitsToNat xs) / 2 ^ xs.length = x := by
      rw [mul_comm x, Nat.mul_add_div (Nat.pos_pow_of_pos _ (by norm_num))]
      rw [Nat.div_eq_of_lt hlt]
      omega
    have hmod : (x * 2 ^ xs.length + bitsToNat xs) % 2 ^ xs.length = bitsToNat xs := by
      rw [mul_comm x, Nat.mul_add_mod, Nat.mod_eq_of_lt hlt]
    rw [hdiv, hmod, ih hxs]

theorem binNat_zero : binNat 0 = [0] := rfl

theorem binNat_eq_digits_reverse (v : Nat) (hv : v ≠ 0) :
    binNat v = (Nat.digits 2 v).reverse := by
  rw [binNat, if_neg hv, bitsLE_eq_digits v v le_rfl]

theorem bitsToNat_reverse (l : List Nat) :
    bitsToNat l.reverse = Nat.ofDigits 2 l := by
  induction l with
  | nil => simp [bitsToNat]
  | cons d L ih =>
    rw [List.reverse_cons, bitsToNat_append_one, ih, Nat.ofDigits_cons]
    ring

theorem bitsToNat_binNat (v : Nat) : bitsToNat (binNat v) = v := by
  by_cases hv : v = 0
  · subst hv; rfl
  · rw [binNat_eq_digits_reverse v hv, bitsToNat_reverse, Nat.ofDigits_digits]

theorem binNat_bits (v : Nat) : ∀ b ∈ binNat v, b ≤ 1 := by
  by_cases hv : v = 0
  · subst hv; intro b hb; simp [binNat_zero] at hb; omega
  · rw [binNat_eq_digits_reverse v hv]
    intro b hb
    have := Nat.digits_lt_base (by norm_num : 1 < 2) (List.mem_reverse.mp hb)
    omega

theorem binNat_length_le (v w : Nat) (hw : 1 ≤ w) (hv : v < 2 ^ w) :
    (binNat v).length ≤ w := by
  by_cases h0 : v = 0
  · subst h0; simpa [binNat_zero] using hw
  · rw [binNat_eq_digits_reverse v h0, List.length_reverse,
      Nat.digits_len 2 v (by norm_num) h0]
    have := (Nat.log_lt_of_lt_pow h0 hv)
    omega

theorem zfill_length (w : Nat) (l : List Nat) (h : l.length ≤ w) :
    (zfill w l).length = w := by
  simp [zfill]
  omega

theorem zfill_length_ge (w : Nat) (l : List Nat) : l.length ≤ (zfill w l).length := by
  simp [zfill]

theorem zfill_bits (w : Nat) (l : List Nat) (h : ∀ b ∈ l, b ≤ 1) :
    ∀ b ∈ zfill w l, b ≤ 1 := by
  intro b hb
  rcases List.mem_append.mp hb with h' | h'
  · have := List.eq_of_mem_replicate h'
    omega
  · exact h b h'

theorem bitsToNat_zfill (w : Nat) (l : List Nat) :
    bitsToNat (zfill w l) = bitsToNat l := by
  rw [zfill]
  unfold bitsToNat
  rw [List.foldl_append]
  have : List.foldl (fun a b => 2 * a + b) 0 (List.replicate (w - l.length) 0) = 0 := by
    generalize w - l.length = m
    induction m with
    | zero => rfl
    | succ k ih => rw [List.replicate_succ, List.foldl_cons]; simpa using ih
  rw [this]

theorem zfill_binNat_eq_toBits (w v : Nat) (hw : 1 ≤ w) (hv : v < 2 ^ w) :
    zfill w (binNat v) = toBits w v := by
  have hb : ∀ b ∈ zfill w (binNat v), b ≤ 1 := zfill_bits _ _ (binNat_bits v)
  have hlen : (zfill w (binNat v)).length = w :=
    zfill_length _ _ (binNat_length_le v w hw hv)
  have hval : bitsToNat (zfill w (binNat v)) = v := by
    rw [bitsToNat_zfill, bitsToNat_binNat]
  calc zfill w (binNat v)
      = toBits (zfill w (binNat v)).length (bitsToNat (zfill w (binNat v))) :=
        (toBits_bitsToNat _ hb).symm
    _ = toBits w v := by rw [hlen, hval]

theorem padTo_length (k : Nat) (l : List Nat) (h : l.length ≤ k) :
    (padTo k l).length = k := by
  simp [padTo]
  omega

theorem padTo_bits (k : Nat) (l : List Nat) (h : ∀ b ∈ l, b ≤ 1) :
    ∀ b ∈ padTo k l, b ≤ 1 := by
  intro b hb
  rcases List.mem_append.mp hb with h' | h'
  · exact h b h'
  · have := List.eq_of_mem_replicate h'
    omega

/-- The key digit/bit inversion: a digit built by `SECRET.get_digits`
from a (padded) chunk of at most `bits_per_digit` bits converts back,
through `DIGIT.convert_to_bits`, to exactly that padded chunk. -/
theorem convert_padTo_roundtrip (n : Nat) (hn : 1 ≤ n) (c : List Nat)
    (hc : ∀ b ∈ c, b ≤ 1) (hlen : c.length ≤ bits_per_digit n) :
    convert_to_bits n (bitsToNat (padTo (bits_per_digit n) c)) = padTo (bits_per_digit n) c := by
  have hplen : (padTo (bits_per_digit n) c).length = bits_per_digit n := padTo_length _ _ hlen
  have hpbits : ∀ b ∈ padTo (bits_per_digit n) c, b ≤ 1 := padTo_bits _ _ hc
  have hval : bitsToNat (padTo (bits_per_digit n) c) < 2 ^ bits_per_digit n := by
    have := bitsToNat_lt _ hpbits
    rwa [hplen] at this
  rw [convert_to_bits, zfill_binNat_eq_toBits _ _ (bits_per_digit_pos n hn) hval]
  calc toBits (bits_per_digit n) (bitsToNat (padTo (bits_per_digit n) c))
      = toBits (padTo (bits_per_digit n) c).length (bitsToNat (padTo (bits_per_digit n) c)) := by
        rw [hplen]
    _ = padTo (bits_per_digit n) c := toBits_bitsToNat _ hpbits

/-- Every digit expansion produced by `DIGIT.convert_to_bits` has at
least `bits_per_digit` bits (`zfill` never truncates). -/
theorem convert_to_bits_length_ge (n v : Nat) :
    bits_per_digit n ≤ (convert_to_bits n v).length := by
  rw [convert_to_bits, zfill]
  simp
  omega

/-! ### The digit function and the embedding search -/

theorem getD_out {α : Type} (l : List α) (pos : Nat) (d : α) (h : l.length ≤ pos) :
    l.getD pos d = d := by
  simp [List.getD_eq_getElem?_getD, List.getElem?_eq_none h]

theorem getD_in (l : List Int) (pos : Nat) (h : pos < l.length) :
    l.getD pos 0 = l[pos] := by
  simp [List.getD_eq_getElem?_getD, List.getElem?_eq_getElem h]

theorem getD_mem (l : List Int) (pos : Nat) (h : pos < l.length) :
    l.getD pos 0 ∈ l := by
  rw [getD_in l pos h]
  exact List.getElem_mem h

theorem getD_set_self (l : List Int) (pos : Nat) (v : Int) (h : pos < l.length) :
    (l.set pos v).getD pos 0 = v := by
  simp [List.getD_eq_getElem?_getD, List.getElem?_set_self h]

theorem getD_set_ne (l : List Int) (pos q : Nat) (v : Int) (h : q ≠ pos) :
    (l.set pos v).getD q 0 = l.getD q 0 := by
  simp [List.getD_eq_getElem?_getD, List.getElem?_set_ne (Ne.symm h)]

theorem get_digit_nonneg (g : List Int) : 0 ≤ get_digit g :=
  Int.emod_nonneg _ (by omega)

theorem get_digit_lt (g : List Int) : get_digit g < 2 * (g.length : Int) + 1 :=
  Int.emod_lt_of_pos _ (by omega)

theorem sVal_nonneg (g : List Int) (t : Int) : 0 ≤ sVal g t :=
  Int.emod_nonneg _ (by omega)

theorem sVal_lt (g : List Int) (t : Int) : sVal g t < 2 * (g.length : Int) + 1 :=
  Int.emod_lt_of_pos _ (by omega)

theorem sVal_pos (g : List Int) (t : Int) (hne : get_digit g ≠ t)
    (h0 : 0 ≤ t) (h1 : t < 2 * (g.length : Int) + 1) : 0 < sVal g t := by
  rcases (sVal_nonneg g t).lt_or_eq with h | h
  · exact h
  · exfalso
    have hdvd : (2 * (g.length : Int) + 1) ∣ (t - get_digit g) :=
      Int.dvd_of_emod_eq_zero h.symm
    have habs : t - get_digit g = 0 := by
      refine Int.eq_zero_of_abs_lt_dvd hdvd ?_
      have hd0 := get_digit_nonneg g
      have hd1 := get_digit_lt g
      rw [abs_lt]
      omega
    exact hne (by omega)

theorem posInc_cast (g : List Int) (t : Int) (hs : 0 < sVal g t) :
    ((posInc g t : Nat) : Int) = sVal g t - 1 := by
  unfold posInc
  omega

theorem posInc_lt (g : List Int) (t : Int) (hs : 0 < sVal g t)
    (hle : sVal g t ≤ (g.length : Int)) : posInc g t < g.length := by
  unfold posInc
  omega

theorem posDec_cast (g : List Int) (t : Int) :
    ((posDec g t : Nat) : Int) = (2 * (g.length : Int) + 1) - sVal g t - 1 := by
  have h1 := sVal_lt g t
  unfold posDec
  omega

theorem posDec_lt (g : List Int) (t : Int) (hgt : ¬ sVal g t ≤ (g.length : Int)) :
    posDec g t < g.length := by
  have h1 := sVal_lt g t
  unfold posDec
  omega

theorem satCount_le (g : List Int) : satCount g ≤ g.length :=
  List.countP_le_length _

theorem satCount_set_lt (g : List Int) (pos : Nat) (v' : Int) (hpos : pos < g.length)
    (hsat : g.getD pos 0 = 0 ∨ g.getD pos 0 = 255) (hnew : ¬(v' = 0 ∨ v' = 255)) :
    satCount (g.set pos v') < satCount g := by
  unfold satCount
  rw [List.countP_set _ _ _ _ hpos]
  have hg : g[pos] = g.getD pos 0 := (getD_in g pos hpos).symm
  have hcnt : 0 < g.countP (fun v => decide (v = 0 ∨ v = 255)) := by
    refine List.countP_pos_iff.mpr ⟨g[pos], List.getElem_mem hpos, ?_⟩
    simp only [decide_eq_true_eq, hg]
    exact hsat
  have h1 : (if (fun v => decide (v = 0 ∨ v = 255)) g[pos] then 1 else 0) = 1 := by
    simp only [hg]
    rcases hsat with h | h <;> rw [h] <;> norm_num
  have h2 : (if (fun v => decide (v = 0 ∨ v = 255)) v' then 1 else 0) = 0 := by
    simp [hnew]
  rw [h1, h2]
  omega

theorem wsumFrom_set : ∀ (g : List Int) (w pos : Nat) (v : Int), pos < g.length →
    wsumFrom w (g.set pos v) = wsumFrom w g + ((w + pos : Nat) : Int) * (v - g.getD pos 0) := by
  intro g
  induction g with
  | nil => intro w pos v h; simp at h
  | cons x xs ih =>
    intro w pos v h
    cases pos with
    | zero =>
      simp only [List.set_cons_zero, wsumFrom, List.getD_cons_zero, Nat.add_zero]
      ring
    | succ p =>
      have hp : p < xs.length := by simpa using h
      simp only [List.set_cons_succ, wsumFrom, List.getD_cons_succ]
      rw [ih (w + 1) p v hp]
      have : ((w + 1 + p : Nat) : Int) = ((w + (p + 1) : Nat) : Int) := by push_cast; ring
      rw [this]
      ring

theorem get_digit_set (g : List Int) (pos : Nat) (v : Int) (h : pos < g.length) :
    get_digit (g.set pos v) =
      (wsumFrom 1 g + ((pos : Int) + 1) * (v - g.getD pos 0)) % (2 * (g.length : Int) + 1) := by
  unfold get_digit
  rw [List.length_set, wsumFrom_set g 1 pos v h]
  have : ((1 + pos : Nat) : Int) = (pos : Int) + 1 := by push_cast; ring
  rw [this]

theorem emod_add_sub_cancel (d t b : Int) : (d + (t - d) % b) % b = t % b := by
  conv_lhs => rw [Int.emod_def (t - d) b]
  have : d + (t - d - b * ((t - d) / b)) = t + b * (-((t - d) / b)) := by ring
  rw [this, Int.add_mul_emod_self_left]

theorem digit_shift (W t b : Int) (h0 : 0 ≤ t) (h1 : t < b) :
    (W + (t - W % b) % b) % b = t := by
  rw [← Int.emod_add_emod W b ((t - W % b) % b), emod_add_sub_cancel]
  exact Int.emod_eq_of_lt h0 h1

theorem embedF_length : ∀ fuel (g : List Int) (t : Int) (g' : List Int),
    embedF fuel g t = some g' → g'.length = g.length := by
  intro fuel
  induction fuel with
  | zero => intro g t g' h; simp [embedF] at h
  | succ f ih =>
    intro g t g' h
    simp only [embedF] at h
    split at h
    · cases h; rfl
    · split at h
      · split at h
        · have := ih _ _ _ h
          simpa using this
        · cases h; simp
      · split at h
        · have := ih _ _ _ h
          simpa using this
        · cases h; simp

theorem embedF_isSome : ∀ fuel (g : List Int) (t : Int), satCount g < fuel →
    (embedF fuel g t).isSome := by
  intro fuel
  induction fuel with
  | zero => intro g t h; omega
  | succ f ih =>
    intro g t h
    simp only [embedF]
    split
    · simp
    · split
      · split
        · rename_i hne hle hval
          apply ih
          have hpos : posInc g t < g.length := by
            by_contra hout
            rw [getD_out _ _ _ (le_of_not_lt hout)] at hval
            exact absurd hval (by norm_num)
          have hlt := satCount_set_lt g (posInc g t) (g.getD (posInc g t) 0 - 1) hpos
            (Or.inr hval) (by rw [hval]; norm_num)
          omega
        · simp
      · split
        · rename_i hne hgt hval
          apply ih
          have hpos : posDec g t < g.length := posDec_lt g t hgt
          have hlt := satCount_set_lt g (posDec g t) (g.getD (posDec g t) 0 + 1) hpos
            (Or.inl hval) (by rw [hval]; norm_num)
          omega
        · simp

theorem embedF_digit : ∀ fuel (g : List Int) (t : Int), satCount g < fuel →
    0 ≤ t → t < 2 * (g.length : Int) + 1 →
    ∃ g', embedF fuel g t = some g' ∧ get_digit g' = t := by
  intro fuel
  induction fuel with
  | zero => intro g t h _ _; omega
  | succ f ih =>
    intro g t h h0 h1
    simp only [embedF]
    split
    · rename_i hd; exact ⟨g, rfl, hd⟩
    · rename_i hne
      have hs : 0 < sVal g t := sVal_pos g t hne h0 h1
      split
      · rename_i hle
        have hpos : posInc g t < g.length := posInc_lt g t hs hle
        split
        · rename_i hval
          have hlt := satCount_set_lt g (posInc g t) (g.getD (posInc g t) 0 - 1) hpos
            (Or.inr hval) (by rw [hval]; norm_num)
          have hlen : (((g.set (posInc g t) (g.getD (posInc g t) 0 - 1)).length : Nat) : Int)
              = (g.length : Int) := by simp
          exact ih _ t (by omega) h0 (by rw [hlen]; exact h1)
        · rename_i hval
          refine ⟨_, rfl, ?_⟩
          rw [get_digit_set g (posInc g t) _ hpos]
          have hc : ((posInc g t : Nat) : Int) = sVal g t - 1 := posInc_cast g t hs
          have he : wsumFrom 1 g + (((posInc g t : Nat) : Int) + 1) *
              (g.getD (posInc g t) 0 + 1 - g.getD (posInc g t) 0)
              = wsumFrom 1 g + sVal g t := by rw [hc]; ring
          rw [he]
          show (wsumFrom 1 g + (t - get_digit g) % (2 * (g.length : Int) + 1)) %
            (2 * (g.length : Int) + 1) = t
          rw [show get_digit g = wsumFrom 1 g % (2 * (g.length : Int) + 1) from rfl]
          exact digit_shift (wsumFrom 1 g) t _ h0 h1
      · rename_i hgt
        have hpos : posDec g t < g.length := posDec_lt g t hgt
        split
        · rename_i hval
          have hlt := satCount_set_lt g (posDec g t) (g.getD (posDec g t) 0 + 1) hpos
            (Or.inl hval) (by rw [hval]; norm_num)
          have hlen : (((g.set (posDec g t) (g.getD (posDec g t) 0 + 1)).length : Nat) : Int)
              = (g.length : Int) := by simp
          exact ih _ t (by omega) h0 (by rw [hlen]; exact h1)
        · rename_i hval
          refine ⟨_, rfl, ?_⟩
          rw [get_digit_set g (posDec g t) _ hpos]
          have hc : ((posDec g t : Nat) : Int)
              = (2 * (g.length : Int) + 1) - sVal g t - 1 := posDec_cast g t
          have he : wsumFrom 1 g + (((posDec g t : Nat) : Int) + 1) *
              (g.getD (posDec g t) 0 - 1 - g.getD (posDec g t) 0)
              = (wsumFrom 1 g + sVal g t) + (2 * (g.length : Int) + 1) * (-1) := by
            rw [hc]; ring
          rw [he, Int.add_mul_emod_self_left]
          show (wsumFrom 1 g + (t - get_digit g) % (2 * (g.length : Int) + 1)) %
            (2 * (g.length : Int) + 1) = t
          rw [show get_digit g = wsumFrom 1 g % (2 * (g.length : Int) + 1) from rfl]
          exact digit_shift (wsumFrom 1 g) t _ h0 h1

theorem embed_digit (g : List Int) (t : Int) (h0 : 0 ≤ t)
    (h1 : t < 2 * (g.length : Int) + 1) : get_digit (embed g t) = t := by
  obtain ⟨g', hsome, hdig⟩ :=
    embedF_digit (g.length + 1) g t (by have := satCount_le g; omega) h0 h1
  rw [embed, hsome]
  simpa using hdig

theorem embed_length (g : List Int) (t : Int) : (embed g t).length = g.length := by
  unfold embed
  cases hE : embedF (g.length + 1) g t with
  | none => simp
  | some g' => simpa using embedF_length _ _ _ _ hE

theorem embedF_range : ∀ fuel (g : List Int) (t : Int) (g' : List Int),
    embedF fuel g t = some g' → (∀ v ∈ g, 0 ≤ v ∧ v ≤ 255) →
    ∀ v ∈ g', 0 ≤ v ∧ v ≤ 255 := by
  intro fuel
  induction fuel with
  | zero => intro g t g' h _; simp [embedF] at h
  | succ f ih =>
    intro g t g' h hg
    simp only [embedF] at h
    split at h
    · cases h; exact hg
    · split at h
      · split at h
        · rename_i hval
          refine ih _ _ _ h ?_
          intro v hv
          rcases List.mem_or_eq_of_mem_set hv with hv' | hv'
          · exact hg v hv'
          · subst hv'; rw [hval]; norm_num
        · rename_i hval
          cases h
          intro v hv
          rcases List.mem_or_eq_of_mem_set hv with hv' | hv'
          · exact hg v hv'
          · subst hv'
            by_cases hpos : posInc g t < g.length
            · have hp := hg _ (getD_mem g (posInc g t) hpos)
              constructor <;> omega
            · rw [getD_out _ _ _ (le_of_not_lt hpos)]
              norm_num
      · split at h
        · rename_i hval
          refine ih _ _ _ h ?_
          intro v hv
          rcases List.mem_or_eq_of_mem_set hv with hv' | hv'
          · exact hg v hv'
          · subst hv'; rw [hval]; norm_num
        · rename_i hval
          cases h
          intro v hv
          rcases List.mem_or_eq_of_mem_set hv with hv' | hv'
          · exact hg v hv'
          · subst hv'
            by_cases hpos : posDec g t < g.length
            · have hp := hg _ (getD_mem g (posDec g t) hpos)
              constructor <;> omega
            · exact absurd (getD_out _ _ _ (le_of_not_lt hpos)) (by assumption)

theorem embedF_dev : ∀ fuel (g₀ g : List Int) (t : Int) (g' : List Int),
    embedF fuel g t = some g' → g.length = g₀.length →
    (∀ p, p < g.length → g.getD p 0 = g₀.getD p 0 ∨
        (g₀.getD p 0 = 255 ∧ g.getD p 0 = 254) ∨
        (g₀.getD p 0 = 0 ∧ g.getD p 0 = 1)) →
    ∀ p, p < g'.length → (g'.getD p 0 - g₀.getD p 0).natAbs ≤ 2 := by
  intro fuel
  induction fuel with
  | zero => intro g₀ g t g' h _ _; simp [embedF] at h
  | succ f ih =>
    intro g₀ g t g' h hlen hdev
    simp only [embedF] at h
    split at h
    · cases h
      intro p hp
      rcases hdev p hp with h' | h' | h' <;> omega
    · split at h
      · split at h
        · rename_i hval
          refine ih g₀ _ t g' h (by simpa using hlen) ?_
          intro p hp
          rw [List.length_set] at hp
          by_cases hpq : p = posInc g t
          · subst hpq
            rw [getD_set_self _ _ _ hp]
            rcases hdev _ hp with h' | h' | h' <;> omega
          · rw [getD_set_ne _ _ _ _ hpq]
            exact hdev p hp
        · cases h
          intro p hp
          rw [List.length_set] at hp
          by_cases hpq : p = posInc g t
          · subst hpq
            rw [getD_set_self _ _ _ hp]
            rcases hdev _ hp with h' | h' | h' <;> omega
          · rw [getD_set_ne _ _ _ _ hpq]
            rcases hdev p hp with h' | h' | h' <;> omega
      · split at h
        · rename_i hval
          refine ih g₀ _ t g' h (by simpa using hlen) ?_
          intro p hp
          rw [List.length_set] at hp
          by_cases hpq : p = posDec g t
          · subst hpq
            rw [getD_set_self _ _ _ hp]
            rcases hdev _ hp with h' | h' | h' <;> omega
          · rw [getD_set_ne _ _ _ _ hpq]
            exact hdev p hp
        · cases h
          intro p hp
          rw [List.length_set] at hp
          by_cases hpq : p = posDec g t
          · subst hpq
            rw [getD_set_self _ _ _ hp]
            rcases hdev _ hp with h' | h' | h' <;> omega
          · rw [getD_set_ne _ _ _ _ hpq]
            rcases hdev p hp with h' | h' | h' <;> omega

theorem embed_dev (g : List Int) (t : Int) :
    ∀ p, p < g.length → ((embed g t).getD p 0 - g.getD p 0).natAbs ≤ 2 := by
  intro p hp
  unfold embed
  cases hE : embedF (g.length + 1) g t with
  | none => simp
  | some g' =>
    have hlen' := embedF_length _ _ _ _ hE
    have := embedF_dev (g.length + 1) g g t g' hE rfl
      (fun q hq => Or.inl rfl) p (by omega)
    simpa using this

theorem embed_of_digit_eq (g : List Int) (t : Int) (hd : get_digit g = t) :
    embed g t = g := by
  unfold embed
  have hE : embedF (g.length + 1) g t = some g := by
    simp only [embedF]
    rw [if_pos hd]
  rw [hE]
  rfl

theorem embed_interior (g : List Int) (t : Int) (h0 : 0 ≤ t)
    (h1 : t < 2 * (g.length : Int) + 1) (hint : ∀ v ∈ g, 1 ≤ v ∧ v ≤ 254) :
    ∃ pos, (∀ q, q < g.length → q ≠ pos → (embed g t).getD q 0 = g.getD q 0) ∧
      ((embed g t).getD pos 0 - g.getD pos 0).natAbs ≤ 1 := by
  by_cases hd : get_digit g = t
  · rw [embed_of_digit_eq g t hd]
    exact ⟨0, fun q _ _ => rfl, by simp⟩
  · have hs := sVal_pos g t hd h0 h1
    by_cases hle : sVal g t ≤ (g.length : Int)
    · have hpos := posInc_lt g t hs hle
      have hval : ¬ g.getD (posInc g t) 0 = 255 := by
        have := hint _ (getD_mem g _ hpos)
        omega
      have hE : embedF (g.length + 1) g t
          = some (g.set (posInc g t) (g.getD (posInc g t) 0 + 1)) := by
        simp only [embedF]
        rw [if_neg hd, if_pos hle, if_neg hval]
      refine ⟨posInc g t, ?_, ?_⟩
      · intro q hq hne
        rw [embed, hE, Option.getD_some]
        exact getD_set_ne _ _ _ _ hne
      · rw [embed, hE, Option.getD_some, getD_set_self _ _ _ hpos]
        omega
    · have hpos := posDec_lt g t hle
      have hval : ¬ g.getD (posDec g t) 0 = 0 := by
        have := hint _ (getD_mem g _ hpos)
        omega
      have hE : embedF (g.length + 1) g t
          = some (g.set (posDec g t) (g.getD (posDec g t) 0 - 1)) := by
        simp only [embedF]
        rw [if_neg hd, if_neg hle, if_neg hval]
      refine ⟨posDec g t, ?_, ?_⟩
      · intro q hq hne
        rw [embed, hE, Option.getD_some]
        exact getD_set_ne _ _ _ _ hne
      · rw [embed, hE, Option.getD_some, getD_set_self _ _ _ hpos]
        omega

/-! ### Stego groups on the pixel plane -/

theorem set_pixel_pix (img : IMAGE) (x y : Nat) (v : Int) (a b : Nat) :
    (set_pixel img x y v).pix (a, b) = if a = x ∧ b = y then v else img.pix (a, b) := rfl

theorem set_pixels_succ (img : IMAGE) (x y m : Nat) (vals : List Int) :
    set_pixels img x y (m + 1) vals
      = set_pixel (set_pixels img x y m vals) (x + m) y (vals.getD m 0) := by
  unfold set_pixels
  rw [List.range_succ, List.foldl_append]
  rfl

theorem set_pixels_pix : ∀ (nn : Nat) (img : IMAGE) (x y : Nat) (vals : List Int) (a b : Nat),
    (set_pixels img x y nn vals).pix (a, b) =
      if b = y ∧ x ≤ a ∧ a < x + nn then vals.getD (a - x) 0 else img.pix (a, b) := by
  intro nn
  induction nn with
  | zero =>
    intro img x y vals a b
    rw [if_neg (by omega)]
    rfl
  | succ m ih =>
    intro img x y vals a b
    rw [set_pixels_succ, set_pixel_pix, ih img x y vals a b]
    by_cases h1 : a = x + m ∧ b = y
    · rw [if_pos h1, if_pos (by omega)]
      rw [show a - x = m by omega]
    · rw [if_neg h1]
      by_cases h2 : b = y ∧ x ≤ a ∧ a < x + m
      · rw [if_pos h2, if_pos (by omega)]
      · rw [if_neg h2, if_neg (by omega)]

theorem get_pixels_length (img : IMAGE) (x y n : Nat) :
    (get_pixels img x y n).length = n := by
  simp [get_pixels]

theorem stego_pixels_length (img : IMAGE) (idx n : Nat) :
    (stego_pixels img idx n).length = n := by
  simp [stego_pixels, get_pixels]

theorem map_range_getD (l : List Int) (n : Nat) (h : l.length = n) :
    (List.range n).map (fun i => l.getD i 0) = l := by
  apply List.ext_getElem (by simp [h])
  intro i h1 h2
  simp only [List.getElem_map, List.getElem_range]
  exact getD_in l i (by omega)
theorem set_pixels_width : ∀ (n : Nat) (img : IMAGE) (x y : Nat) (vals : List Int),
    (set_pixels img x y n vals).width = img.width := by
  intro n
  induction n with
  | zero => intro img x y vals; rfl
  | succ m ih =>
    intro img x y vals
    rw [set_pixels_succ]
    exact ih img x y vals

theorem get_xy_set_stego (img : IMAGE) (k n : Nat) (vals : List Int) (j m : Nat) :
    get_xy (set_stego img k n vals) j m = get_xy img j m := by
  unfold get_xy set_stego
  rw [set_pixels_width]

theorem bands_disjoint (W nn j k a : Nat) (hjk : j ≠ k)
    (hja : (j % (W / nn)) * nn ≤ a) (hja' : a < (j % (W / nn)) * nn + nn)
    (hka : (k % (W / nn)) * nn ≤ a) (hka' : a < (k % (W / nn)) * nn + nn)
    (hy : j / (W / nn) = k / (W / nn)) : False := by
  have hj : a / nn = j % (W / nn) :=
    Nat.div_eq_of_lt_le hja (by rw [Nat.succ_mul]; omega)
  have hk : a / nn = k % (W / nn) :=
    Nat.div_eq_of_lt_le hka (by rw [Nat.succ_mul]; omega)
  have hmod : j % (W / nn) = k % (W / nn) := by omega
  have hdj := Nat.div_add_mod j (W / nn)
  have hdk := Nat.div_add_mod k (W / nn)
  rw [hy, hmod] at hdj
  omega

theorem stego_pixels_set_other (img : IMAGE) (n j k : Nat) (hjk : j ≠ k)
    (vals : List Int) :
    stego_pixels (set_stego img k n vals) j n = stego_pixels img j n := by
  unfold stego_pixels
  rw [get_xy_set_stego]
  unfold get_pixels
  apply List.map_congr_left
  intro i hi
  have hi' : i < n := List.mem_range.mp hi
  unfold set_stego
  rw [set_pixels_pix, if_neg ?_]
  intro hband
  unfold get_xy at hband
  dsimp only at hband
  obtain ⟨hy2, h2, h3⟩ := hband
  exact bands_disjoint img.width n j k ((j % (img.width / n)) * n + i) hjk
    (by omega) (by omega) (by omega) (by omega) hy2

theorem stego_pixels_set_self (img : IMAGE) (n idx : Nat) (vals : List Int)
    (hlen : vals.length = n) :
    stego_pixels (set_stego img idx n vals) idx n = vals := by
  unfold stego_pixels
  rw [get_xy_set_stego]
  unfold get_pixels
  have hmap : ∀ i ∈ List.range n,
      (set_stego img idx n vals).pix ((get_xy img idx n).1 + i, (get_xy img idx n).2)
        = vals.getD i 0 := by
    intro i hi
    have hi' : i < n := List.mem_range.mp hi
    unfold set_stego
    rw [set_pixels_pix, if_pos ?_]
    · rw [show (get_xy img idx n).1 + i - (get_xy img idx n).1 = i by omega]
    · exact ⟨rfl, by omega, by omega⟩
  rw [List.map_congr_left hmap]
  exact map_range_getD vals n hlen

/-! ### The hide loop -/

theorem hideFrom_preserves : ∀ (ts : List Nat) (n idx j : Nat) (img : IMAGE), j < idx →
    stego_pixels (hideFrom n ts idx img) j n = stego_pixels img j n := by
  intro ts
  induction ts with
  | nil => intro n idx j img _; rfl
  | cons t ts ih =>
    intro n idx j img hj
    show stego_pixels (hideFrom n ts (idx + 1) _) j n = _
    rw [ih n (idx + 1) j _ (by omega)]
    exact stego_pixels_set_other img n j idx (by omega : j ≠ idx) _

theorem hideFrom_digit : ∀ (ts : List Nat) (n idx : Nat) (img : IMAGE) (k : Nat),
    (∀ v ∈ ts, v < 2 * n + 1) → k < ts.length →
    get_digit (stego_pixels (hideFrom n ts idx img) (idx + k) n)
      = ((ts.getD k 0 : Nat) : Int) := by
  intro ts
  induction ts with
  | nil => intro n idx img k _ hk; simp at hk
  | cons t ts ih =>
    intro n idx img k hmem hk
    cases k with
    | zero =>
      show get_digit (stego_pixels (hideFrom n ts (idx + 1) _) (idx + 0) n) = _
      rw [show idx + 0 = idx from rfl]
      rw [hideFrom_preserves ts n (idx + 1) idx _ (by omega)]
      have hglen : (stego_pixels img idx n).length = n := stego_pixels_length img idx n
      have hlen : (embed (stego_pixels img idx n) (t : Int)).length = n := by
        rw [embed_length]; exact hglen
      rw [stego_pixels_set_self img n idx _ hlen]
      rw [List.getD_cons_zero]
      apply embed_digit
      · exact Int.natCast_nonneg t
      · rw [hglen]
        have ht : t < 2 * n + 1 := hmem t (by simp)
        exact_mod_cast ht
    | succ k =>
      show get_digit (stego_pixels (hideFrom n ts (idx + 1) _) (idx + (k + 1)) n) = _
      rw [show idx + (k + 1) = (idx + 1) + k by omega]
      rw [List.getD_cons_succ]
      exact ih n (idx + 1) _ k (fun v hv => hmem v (by simp [hv])) (by simpa using hk)

/-! ### Chunking the bit stream into digits and back -/

theorem ceilDiv_succ (m k : Nat) (hk : 1 ≤ k) (hm : 1 ≤ m) :
    ceilDiv m k = ceilDiv (m - k) k + 1 := by
  unfold ceilDiv
  by_cases h : m ≤ k
  · have h1 : (m + (k - 1)) / k = 1 :=
      Nat.div_eq_of_lt_le (by omega) (by omega)
    have h2 : (m - k + (k - 1)) / k = 0 := Nat.div_eq_of_lt (by omega)
    omega
  · have he : m + (k - 1) = (m - k + (k - 1)) + k := by omega
    rw [he, Nat.add_div_right _ (by omega)]

theorem ceilDiv_eq_zero (m k : Nat) (hk : 1 ≤ k) (h : ceilDiv m k = 0) : m = 0 := by
  unfold ceilDiv at h
  have := (Nat.div_eq_zero_iff (by omega : 0 < k)).mp h
  omega

theorem map_range_getD' {α : Type} (l : List α) (d : α) (n : Nat) (h : l.length = n) :
    (List.range n).map (fun i => l.getD i d) = l := by
  apply List.ext_getElem (by simp [h])
  intro i h1 h2
  simp only [List.getElem_map, List.getElem_range]
  simp [List.getD_eq_getElem?_getD, List.getElem?_eq_getElem (show i < l.length by omega)]

theorem getD_map_range {α : Type} (f : Nat → α) (nb k : Nat) (d : α) (hk : k < nb) :
    ((List.range nb).map f).getD k d = f k := by
  simp [List.getD_eq_getElem?_getD, List.getElem?_eq_getElem, hk]

theorem flatten_chunks : ∀ (nb k : Nat) (l : List Nat), 1 ≤ k → nb = ceilDiv l.length k →
    ((List.range nb).map (fun j => padTo k ((l.drop (j * k)).take k))).flatten
      = l ++ List.replicate (nb * k - l.length) 0 := by
  intro nb
  induction nb with
  | zero =>
    intro k l hk h0
    have hlen : l.length = 0 := ceilDiv_eq_zero _ _ hk h0.symm
    have : l = [] := List.length_eq_zero.mp hlen
    subst this
    simp
  | succ m ih =>
    intro k l hk h0
    have hm : 1 ≤ l.length := by
      by_contra hc
      have : l.length = 0 := by omega
      rw [show l.length = 0 from this] at h0
      have : ceilDiv 0 k = 0 := by
        unfold ceilDiv
        exact Nat.div_eq_of_lt (by omega)
      omega
    have hstep := ceilDiv_succ l.length k hk hm
    have hm' : m = ceilDiv (l.length - k) k := by omega
    rw [List.range_succ_eq_map, List.map_cons, List.flatten_cons, List.map_map]
    have hfun : ((fun j => padTo k ((l.drop (j * k)).take k)) ∘ Nat.succ)
        = (fun j => padTo k (((l.drop k).drop (j * k)).take k)) := by
      funext j
      show padTo k ((l.drop (Nat.succ j * k)).take k) = _
      rw [List.drop_drop, show k + j * k = Nat.succ j * k from by rw [Nat.succ_mul]; omega]
    rw [hfun]
    have hlen' : (l.drop k).length = l.length - k := List.length_drop k l
    rw [ih k (l.drop k) hk (by rw [hlen']; exact hm')]
    rw [Nat.zero_mul, List.drop_zero]
    by_cases hle : l.length ≤ k
    · have htake : l.take k = l := List.take_of_length_le hle
      have hdrop : l.drop k = [] := List.drop_of_length_le hle
      have hm0 : m = 0 := by
        rw [hm']
        have : l.length - k = 0 := by omega
        rw [this]
        unfold ceilDiv
        exact Nat.div_eq_of_lt (by omega)
      subst hm0
      rw [htake, hdrop]
      unfold padTo
      simp only [List.nil_append, List.append_nil]
      rw [List.append_assoc]
      have : List.replicate (k - l.length) (0 : Nat) ++ []
          = List.replicate (1 * k - l.length) 0 ++ List.replicate (0 * k - (l.length - k)) 0 := by
        simp [Nat.one_mul]
      rw [← List.append_assoc]
      simp [Nat.one_mul]
    · have htake : (l.take k).length = k := by
        rw [List.length_take]
        omega
      have hpad : padTo k (l.take k) = l.take k := by
        unfold padTo
        rw [htake]
        simp
      rw [hpad, ← List.append_assoc, List.take_append_drop, hlen']
      have he2 : m * k - (l.length - k) = (m + 1) * k - l.length := by
        rw [Nat.succ_mul]
        omega
      rw [he2]

theorem bytes_to_bits_length (bs : List Nat) (h : ∀ c ∈ bs, c < 256) :
    (bytes_to_bits bs).length = 8 * bs.length := by
  induction bs with
  | nil => rfl
  | cons c cs ih =>
    show ((zfill 8 (binNat c) :: cs.map _).flatten).length = _
    rw [List.flatten_cons, List.length_append]
    have hrec : ((cs.map (fun c => zfill 8 (binNat c))).flatten).length = 8 * cs.length :=
      ih (fun x hx => h x (by simp [hx]))
    have hc : c < 2 ^ 8 := by
      have h2 : (2 : Nat) ^ 8 = 256 := by norm_num
      have := h c (by simp)
      omega
    rw [hrec, zfill_length 8 _ (binNat_length_le c 8 (by norm_num) hc)]
    simp [List.length_cons]
    ring

theorem bytes_to_bits_bits (bs : List Nat) : ∀ b ∈ bytes_to_bits bs, b ≤ 1 := by
  intro b hb
  unfold bytes_to_bits at hb
  rw [List.mem_flatten] at hb
  obtain ⟨l, hl, hbl⟩ := hb
  rw [List.mem_map] at hl
  obtain ⟨c, _, rfl⟩ := hl
  exact zfill_bits _ _ (binNat_bits c) b hbl

theorem flatten_block : ∀ (S : List Nat) (f : Nat → List Nat) (w : Nat),
    (∀ c ∈ S, (f c).length = w) → ∀ i, i < S.length →
    (((S.map f).flatten).drop (i * w)).take w = f (S.getD i 0) := by
  intro S
  induction S with
  | nil => intro f w _ i hi; simp at hi
  | cons c cs ih =>
    intro f w hf i hi
    rw [List.map_cons, List.flatten_cons]
    cases i with
    | zero =>
      rw [Nat.zero_mul, List.drop_zero, List.getD_cons_zero]
      exact List.take_left' (hf c (by simp))
    | succ j =>
      have he : Nat.succ j * w = (f c).length + j * w := by
        rw [hf c (by simp), Nat.succ_mul]
        omega
      rw [he, List.drop_append, List.getD_cons_succ]
      exact ih f w (fun x hx => hf x (by simp [hx])) j (by simpa using hi)

theorem bits_chunks_roundtrip (S : List Nat) (hS : ∀ c ∈ S, c < 256) :
    bits_chunks_to_bytes (bytes_to_bits S) = S := by
  unfold bits_chunks_to_bytes
  have hlen := bytes_to_bits_length S hS
  have hnb : ceilDiv (bytes_to_bits S).length 8 = S.length := by
    rw [hlen]
    unfold ceilDiv
    omega
  rw [hnb]
  have hw : ∀ c ∈ S, (zfill 8 (binNat c)).length = 8 := by
    intro c hc
    refine zfill_length 8 _ (binNat_length_le c 8 (by norm_num) ?_)
    have h2 : (2 : Nat) ^ 8 = 256 := by norm_num
    have := hS c hc
    omega
  have hblocks : ∀ i ∈ List.range S.length,
      bitsToNat (((bytes_to_bits S).drop (i * 8)).take 8) = S.getD i 0 := by
    intro i hi
    show bitsToNat ((((S.map (fun c => zfill 8 (binNat c))).flatten).drop (i * 8)).take 8)
        = S.getD i 0
    rw [flatten_block S _ 8 hw i (List.mem_range.mp hi)]
    rw [bitsToNat_zfill, bitsToNat_binNat]
  rw [List.map_congr_left hblocks]
  exact map_range_getD' S 0 S.length rfl

theorem secret_digit_vals_length (bpd : Nat) (bits : List Nat) :
    (secret_digit_vals bpd bits).length = ceilDiv bits.length bpd := by
  simp [secret_digit_vals]

theorem chunk_bits (bits : List Nat) (hbits : ∀ b ∈ bits, b ≤ 1) (j k : Nat) :
    ∀ b ∈ (bits.drop (j * k)).take k, b ≤ 1 := fun b hb =>
  hbits b (List.mem_of_mem_drop (List.mem_of_mem_take hb))

theorem chunk_length_le (bits : List Nat) (j k : Nat) :
    ((bits.drop (j * k)).take k).length ≤ k := by
  rw [List.length_take]
  omega

theorem secret_digit_vals_lt (n : Nat) (bits : List Nat)
    (hbits : ∀ b ∈ bits, b ≤ 1) :
    ∀ v ∈ secret_digit_vals (bits_per_digit n) bits, v < 2 * n + 1 := by
  intro v hv
  unfold secret_digit_vals at hv
  rw [List.mem_map] at hv
  obtain ⟨j, _, rfl⟩ := hv
  have hpl : (padTo (bits_per_digit n) ((bits.drop (j * bits_per_digit n)).take (bits_per_digit n))).length
      = bits_per_digit n := padTo_length _ _ (chunk_length_le bits j _)
  have hpb := padTo_bits (bits_per_digit n)
    ((bits.drop (j * bits_per_digit n)).take (bits_per_digit n))
    (chunk_bits bits hbits j (bits_per_digit n))
  have := bitsToNat_lt _ hpb
  rw [hpl] at this
  have := pow_bits_per_digit_le n
  omega

theorem secret_digit_vals_getD (bpd : Nat) (bits : List Nat) (k : Nat)
    (hk : k < ceilDiv bits.length bpd) :
    (secret_digit_vals bpd bits).getD k 0
      = bitsToNat (padTo bpd ((bits.drop (k * bpd)).take bpd)) := by
  unfold secret_digit_vals
  exact getD_map_range _ _ _ _ hk

/-- The full hide/extract round trip, assembled from the group-level
and bit-level inversions. -/
theorem roundtrip_aux (S : List Nat) (img : IMAGE) (n : Nat) (hn : 2 ≤ n)
    (hS : ∀ c ∈ S, c < 256)
    (hcap : ceilDiv (8 * S.length) (bits_per_digit n) ≤ (img.width / n) * img.height) :
    hide S img n
        = some (hideFrom n (secret_digit_vals (bits_per_digit n) (bytes_to_bits S)) 0 img) ∧
      extract (hideFrom n (secret_digit_vals (bits_per_digit n) (bytes_to_bits S)) 0 img)
        n S.length = S := by
  have hn1 : 1 ≤ n := by omega
  have hbpd := bits_per_digit_pos n hn1
  have hlenbits := bytes_to_bits_length S hS
  have hreq : ceilDiv (bytes_to_bits S).length (bits_per_digit n)
      = ceilDiv (8 * S.length) (bits_per_digit n) := by rw [hlenbits]
  have hcapOK : ¬ (img.width * img.height
      < ceilDiv (bytes_to_bits S).length (bits_per_digit n) * n) := by
    rw [hreq]
    have h1 : ceilDiv (8 * S.length) (bits_per_digit n) * n
        ≤ ((img.width / n) * img.height) * n := Nat.mul_le_mul_right n hcap
    have h2 : (img.width / n) * img.height * n = (img.width / n) * n * img.height := by ring
    have h3 : (img.width / n) * n ≤ img.width := Nat.div_mul_le_self _ _
    have h4 : (img.width / n) * n * img.height ≤ img.width * img.height :=
      Nat.mul_le_mul_right _ h3
    omega
  constructor
  · show (if img.width * img.height
        < ceilDiv (bytes_to_bits S).length (bits_per_digit n) * n then none
      else some (hideFrom n (secret_digit_vals (bits_per_digit n) (bytes_to_bits S)) 0 img)) = _
    rw [if_neg hcapOK]
  · have hdigitsmem : ∀ v ∈ secret_digit_vals (bits_per_digit n) (bytes_to_bits S),
        v < 2 * n + 1 := secret_digit_vals_lt n (bytes_to_bits S) (bytes_to_bits_bits S)
    have hdglen : (secret_digit_vals (bits_per_digit n) (bytes_to_bits S)).length
        = ceilDiv (8 * S.length) (bits_per_digit n) := by
      rw [secret_digit_vals_length, hreq]
    have hnb' : ceilDiv (S.length * 8) (bits_per_digit n)
        = ceilDiv (8 * S.length) (bits_per_digit n) := by rw [Nat.mul_comm]
    have himg : image_digits
          (hideFrom n (secret_digit_vals (bits_per_digit n) (bytes_to_bits S)) 0 img) n S.length
        = (List.range (ceilDiv (8 * S.length) (bits_per_digit n))).map
            (fun k => (((secret_digit_vals (bits_per_digit n) (bytes_to_bits S)).getD k 0 : Nat)
              : Int)) := by
      unfold image_digits
      rw [hnb']
      apply List.map_congr_left
      intro k hk
      have hk' : k < ceilDiv (8 * S.length) (bits_per_digit n) := List.mem_range.mp hk
      have hd := hideFrom_digit (secret_digit_vals (bits_per_digit n) (bytes_to_bits S))
        n 0 img k hdigitsmem (by rw [hdglen]; exact hk')
      rw [Nat.zero_add] at hd
      exact hd
    have hx : extract_bits
          (hideFrom n (secret_digit_vals (bits_per_digit n) (bytes_to_bits S)) 0 img) n S.length
        = bytes_to_bits S := by
      unfold extract_bits
      rw [himg, List.map_map]
      have hcongr : ∀ k ∈ List.range (ceilDiv (8 * S.length) (bits_per_digit n)),
          ((fun d : Int => convert_to_bits n d.toNat) ∘
            (fun k => (((secret_digit_vals (bits_per_digit n) (bytes_to_bits S)).getD k 0 : Nat)
              : Int))) k
            = padTo (bits_per_digit n)
                (((bytes_to_bits S).drop (k * bits_per_digit n)).take (bits_per_digit n)) := by
        intro k hk
        have hk' : k < ceilDiv (8 * S.length) (bits_per_digit n) := List.mem_range.mp hk
        show convert_to_bits n
            ((((secret_digit_vals (bits_per_digit n) (bytes_to_bits S)).getD k 0 : Nat)
              : Int)).toNat = _
        rw [Int.toNat_natCast]
        rw [secret_digit_vals_getD (bits_per_digit n) (bytes_to_bits S) k (by rw [hreq]; exact hk')]
        exact convert_padTo_roundtrip n hn1 _
          (chunk_bits (bytes_to_bits S) (bytes_to_bits_bits S) k (bits_per_digit n))
          (chunk_length_le (bytes_to_bits S) k (bits_per_digit n))
      rw [List.map_congr_left hcongr]
      rw [flatten_chunks (ceilDiv (8 * S.length) (bits_per_digit n)) (bits_per_digit n)
        (bytes_to_bits S) hbpd hreq.symm]
      rw [show S.length * 8 = (bytes_to_bits S).length from by rw [hlenbits]; ring]
      exact List.take_left _ _
    show bits_chunks_to_bytes (extract_bits _ n S.length) = S
    rw [hx]
    exact bits_chunks_roundtrip S hS

theorem le_ceilDiv_mul (m k : Nat) (hk : 1 ≤ k) : m ≤ ceilDiv m k * k := by
  unfold ceilDiv
  have hdm := Nat.div_add_mod (m + (k - 1)) k
  have hmod : (m + (k - 1)) % k < k := Nat.mod_lt _ (by omega)
  have hcomm : ((m + (k - 1)) / k) * k = k * ((m + (k - 1)) / k) := Nat.mul_comm _ _
  omega

theorem flatten_length_ge (L : List (List Nat)) (w : Nat) (h : ∀ l ∈ L, w ≤ l.length) :
    L.length * w ≤ L.flatten.length := by
  induction L with
  | nil => simp
  | cons x xs ih =>
    rw [List.flatten_cons, List.length_append, List.length_cons, Nat.succ_mul]
    have h1 := h x (by simp)
    have h2 := ih (fun l hl => h l (by simp [hl]))
    omega

theorem image_digits_length (img : IMAGE) (n L : Nat) :
    (image_digits img n L).length = ceilDiv (L * 8) (bits_per_digit n) := by
  simp [image_digits]

theorem extract_bits_length (img : IMAGE) (n L : Nat) (hn : 1 ≤ n) :
    (extract_bits img n L).length = L * 8 := by
  unfold extract_bits
  rw [List.length_take]
  have h1 : ∀ l ∈ (image_digits img n L).map (fun d => convert_to_bits n d.toNat),
      bits_per_digit n ≤ l.length := by
    intro l hl
    rw [List.mem_map] at hl
    obtain ⟨d, _, rfl⟩ := hl
    exact convert_to_bits_length_ge n _
  have h2 := flatten_length_ge _ _ h1
  rw [List.length_map, image_digits_length] at h2
  have h4 := le_ceilDiv_mul (L * 8) (bits_per_digit n) (bits_per_digit_pos n hn)
  omega

/-! ### The claims -/

/-- Claim C1 (round-trip): for every secret byte sequence `S` (the empty
sequence included) and every group size `n ≥ 2`, when the required
digit groups fit in the image's carrier capacity (`requiredDigits ≤
(width / n) * height` carrier groups; outside this region the Python
pixel accessor raises and `hide` produces no image at all), `hide`
succeeds and extracting `len(S)` bytes with the same `n` from the
produced image yields exactly `S`. -/
theorem C1_round_trip (S : List Nat) (img : IMAGE) (n : Nat) (hn : 2 ≤ n)
    (hS : ∀ c ∈ S, c < 256)
    (hcap : ceilDiv (8 * S.length) (bits_per_digit n) ≤ (img.width / n) * img.height) :
    ∃ img', hide S img n = some img' ∧ extract img' n S.length = S :=
  ⟨_, (roundtrip_aux S img n hn hS hcap).1, (roundtrip_aux S img n hn hS hcap).2⟩

/-- Witness for C1 at the secret "Hi" = [72, 105], a 4x4 image of
constant value 100, and n = 2. -/
theorem C1_witness :
    (2 ≤ 2 ∧ (∀ c ∈ ([72, 105] : List Nat), c < 256) ∧
      ceilDiv (8 * 2) (bits_per_digit 2) ≤ (4 / 2) * 4) ∧
    ∃ img', hide [72, 105] ⟨4, 4, fun _ => 100⟩ 2 = some img' ∧
      extract img' 2 2 = [72, 105] :=
  ⟨⟨by norm_num, by decide, by decide⟩,
   C1_round_trip [72, 105] ⟨4, 4, fun _ => 100⟩ 2 (by norm_num) (by decide) (by decide)⟩

/-- Claim C2 counterexample: on the all-saturated group [255, 255] with
n = 2 and target digit 1, the recursion moves pixel 0 from 255 to 253,
a change of 2 in absolute value, refuting "every sample differs from
the input by at most 1". -/
theorem C2_counterexample :
    embed [(255 : Int), 255] 1 = [253, 254] ∧
      ¬ (∀ p, p < 2 → ((embed [(255 : Int), 255] 1).getD p 0
          - ([(255 : Int), 255].getD p 0)).natAbs ≤ 1) := by
  constructor
  · decide
  · decide

/-- Claim C2 (amended): every returned sample differs from its input by
at most 2 (a change of 2 arises only through the saturation recursion),
and when every input sample lies strictly inside [1, 254] at most one
position differs, by at most 1 in absolute value. -/
theorem C2_bounded_perturbation (g : List Int) (t : Int)
    (hg : ∀ v ∈ g, 0 ≤ v ∧ v ≤ 255) (h0 : 0 ≤ t)
    (h1 : t < 2 * (g.length : Int) + 1) :
    (∀ p, p < g.length → ((embed g t).getD p 0 - g.getD p 0).natAbs ≤ 2) ∧
    ((∀ v ∈ g, 1 ≤ v ∧ v ≤ 254) →
      ∃ pos, (∀ q, q < g.length → q ≠ pos → (embed g t).getD q 0 = g.getD q 0) ∧
        ((embed g t).getD pos 0 - g.getD pos 0).natAbs ≤ 1) :=
  ⟨embed_dev g t, fun hint => embed_interior g t h0 h1 hint⟩

/-- Witness for the amended C2 at the group [10, 20] and target 3. -/
theorem C2_witness :
    ((∀ v ∈ ([10, 20] : List Int), 0 ≤ v ∧ v ≤ 255) ∧ (0 : Int) ≤ 3 ∧
      (3 : Int) < 2 * (([10, 20] : List Int).length : Int) + 1) ∧
    ((∀ p, p < ([10, 20] : List Int).length →
        ((embed [10, 20] 3).getD p 0 - ([10, 20] : List Int).getD p 0).natAbs ≤ 2) ∧
    ((∀ v ∈ ([10, 20] : List Int), 1 ≤ v ∧ v ≤ 254) →
      ∃ pos, (∀ q, q < ([10, 20] : List Int).length → q ≠ pos →
          (embed [10, 20] 3).getD q 0 = ([10, 20] : List Int).getD q 0) ∧
        ((embed [10, 20] 3).getD pos 0 - ([10, 20] : List Int).getD pos 0).natAbs ≤ 1)) :=
  ⟨⟨by decide, by decide, by decide⟩,
   C2_bounded_perturbation [10, 20] 3 (by decide) (by decide) (by decide)⟩

/-- Claim C3: for a group of `n ≥ 1` samples in [0, 255] and a target
digit in [0, 2n+1), the embedding search has no error outcome (the
fueled recursion returns within `n + 1` levels) and the group it
returns satisfies `digitOf(result) = targetDigit`. -/
theorem C3_embed_correct (g : List Int) (t : Int) (hn : 1 ≤ g.length)
    (hg : ∀ v ∈ g, 0 ≤ v ∧ v ≤ 255) (h0 : 0 ≤ t)
    (h1 : t < 2 * (g.length : Int) + 1) :
    (embedF (g.length + 1) g t).isSome ∧ get_digit (embed g t) = t :=
  ⟨embedF_isSome _ g t (by have := satCount_le g; omega), embed_digit g t h0 h1⟩

/-- Witness for C3 at the group [10, 20] and target 4. -/
theorem C3_witness :
    (1 ≤ ([10, 20] : List Int).length ∧ (∀ v ∈ ([10, 20] : List Int), 0 ≤ v ∧ v ≤ 255) ∧
      (0 : Int) ≤ 4 ∧ (4 : Int) < 2 * (([10, 20] : List Int).length : Int) + 1) ∧
    ((embedF (([10, 20] : List Int).length + 1) [10, 20] 4).isSome ∧
      get_digit (embed [10, 20] 4) = 4) :=
  ⟨⟨by decide, by decide, by decide, by decide⟩,
   C3_embed_correct [10, 20] 4 (by decide) (by decide) (by decide) (by decide)⟩

/-- Claim C4: the saturation-fallback recursion terminates; its depth is
bounded by the number of saturated samples, which is at most n, so
`satCount g + 1 ≤ n + 1` units of fuel always yield a result. -/
theorem C4_embed_terminates (g : List Int) (t : Int)
    (hg : ∀ v ∈ g, 0 ≤ v ∧ v ≤ 255) (h0 : 0 ≤ t)
    (h1 : t < 2 * (g.length : Int) + 1) :
    (embedF (satCount g + 1) g t).isSome ∧ satCount g ≤ g.length :=
  ⟨embedF_isSome _ g t (by omega), satCount_le g⟩

/-- Witness for C4 at the saturated group [255, 0] and target 2. -/
theorem C4_witness :
    ((∀ v ∈ ([255, 0] : List Int), 0 ≤ v ∧ v ≤ 255) ∧ (0 : Int) ≤ 2 ∧
      (2 : Int) < 2 * (([255, 0] : List Int).length : Int) + 1) ∧
    ((embedF (satCount [255, 0] + 1) [255, 0] 2).isSome ∧
      satCount [255, 0] ≤ ([255, 0] : List Int).length) :=
  ⟨⟨by decide, by decide, by decide⟩,
   C4_embed_terminates [255, 0] 2 (by decide) (by decide) (by decide)⟩

/-- Claim C5: when `width * height < requiredDigits * n`, hide fails
with the capacity error (modelled as `none`); the check precedes every
pixel write in the source, so the image is left unchanged. -/
theorem C5_capacity (S : List Nat) (img : IMAGE) (n : Nat) (hS : ∀ c ∈ S, c < 256)
    (h : img.width * img.height < ceilDiv (8 * S.length) (bits_per_digit n) * n) :
    hide S img n = none := by
  show (if img.width * img.height
      < ceilDiv (bytes_to_bits S).length (bits_per_digit n) * n then none
    else some (hideFrom n (secret_digit_vals (bits_per_digit n) (bytes_to_bits S)) 0 img))
    = none
  rw [bytes_to_bits_length S hS, if_pos h]

/-- Witness for C5: one byte needs 4 digit groups of 2 pixels on a 2x2
image, 8 > 4 pixels, so hide fails. -/
theorem C5_witness :
    ((∀ c ∈ ([65] : List Nat), c < 256) ∧
      2 * 2 < ceilDiv (8 * 1) (bits_per_digit 2) * 2) ∧
    hide [65] ⟨2, 2, fun _ => 0⟩ 2 = none :=
  ⟨⟨by decide, by decide⟩, C5_capacity [65] ⟨2, 2, fun _ => 0⟩ 2 (by decide) (by decide)⟩

/-- Claim C6 counterexample: the group [0, 2] with n = 2 has digit 4, a
value `digitOf` produces during extraction, and
`convert_to_bits` expands it to 3 bits, not `bitsPerDigit = 2`:
`zfill` pads but never truncates. -/
theorem C6_counterexample :
    get_digit [(0 : Int), 2] = 4 ∧
      ¬ ((convert_to_bits 2 ((get_digit [(0 : Int), 2]).toNat)).length
          = bits_per_digit 2) := by
  constructor
  · decide
  · decide

/-- Claim C6 (amended): a digit value below `2 ^ bitsPerDigit` expands
to exactly `bitsPerDigit` bits; every expansion has at least
`bitsPerDigit` bits (values in `[2^bpd, 2n+1)` expand longer); the
truncated extraction bit stream therefore always has exactly
`byteLength * 8` bits. -/
theorem C6_fixed_width (n : Nat) (hn : 1 ≤ n) :
    (∀ v, v < 2 ^ bits_per_digit n → (convert_to_bits n v).length = bits_per_digit n) ∧
    (∀ v, bits_per_digit n ≤ (convert_to_bits n v).length) ∧
    (∀ (img : IMAGE) (L : Nat), (extract_bits img n L).length = L * 8) := by
  refine ⟨?_, fun v => convert_to_bits_length_ge n v,
    fun img L => extract_bits_length img n L hn⟩
  intro v hv
  unfold convert_to_bits
  exact zfill_length _ _ (binNat_length_le v _ (bits_per_digit_pos n hn) hv)

/-- Witness for the amended C6 at n = 2, digit value 3, and a 1x1 image. -/
theorem C6_witness :
    1 ≤ 2 ∧ ((convert_to_bits 2 3).length = bits_per_digit 2 ∧
      bits_per_digit 2 ≤ (convert_to_bits 2 4).length ∧
      (extract_bits ⟨1, 1, fun _ => 0⟩ 2 1).length = 1 * 8) :=
  ⟨by norm_num,
   (C6_fixed_width 2 (by norm_num)).1 3 (by decide),
   (C6_fixed_width 2 (by norm_num)).2.1 4,
   (C6_fixed_width 2 (by norm_num)).2.2 ⟨1, 1, fun _ => 0⟩ 1⟩

/-- Claim C7: zero-change identity — when the group already carries the
target digit, embed returns it with every sample value unchanged. -/
theorem C7_zero_change (g : List Int) (t : Int) (hd : get_digit g = t) :
    embed g t = g :=
  embed_of_digit_eq g t hd

/-- Witness for C7 at the group [10, 20], whose digit is already 0. -/
theorem C7_witness :
    get_digit [(10 : Int), 20] = 0 ∧ embed [(10 : Int), 20] 0 = [10, 20] :=
  ⟨by decide, C7_zero_change [10, 20] 0 (by decide)⟩

/-- Claim C8: the group indexer returns origin
`x = (i mod (W / n)) * n`, `y = i / (W / n)`; the n pixels of the group
satisfy `x + n ≤ (W / n) * n ≤ W`, so a group always lies within the
usable prefix of a single row and the remainder pixels at each row's
end are never used as carriers. -/
theorem C8_get_xy (img : IMAGE) (i n : Nat) (hn : 1 ≤ n) (hW : n ≤ img.width) :
    get_xy img i n = ((i % (img.width / n)) * n, i / (img.width / n)) ∧
    (i % (img.width / n)) * n + n ≤ (img.width / n) * n ∧
    (img.width / n) * n ≤ img.width := by
  refine ⟨rfl, ?_, Nat.div_mul_le_self _ _⟩
  have hline : 1 ≤ img.width / n := (Nat.one_le_div_iff (by omega)).mpr hW
  have hmod : i % (img.width / n) < img.width / n := Nat.mod_lt _ (by omega)
  have hmul : (i % (img.width / n) + 1) * n ≤ (img.width / n) * n :=
    Nat.mul_le_mul_right n (by omega)
  rw [Nat.add_mul] at hmul
  omega

/-- Witness for C8 at a width-10 image, digit index 7, n = 3. -/
theorem C8_witness :
    (1 ≤ 3 ∧ 3 ≤ 10) ∧
    (get_xy ⟨10, 5, fun _ => 0⟩ 7 3 = ((7 % (10 / 3)) * 3, 7 / (10 / 3)) ∧
      (7 % (10 / 3)) * 3 + 3 ≤ (10 / 3) * 3 ∧ (10 / 3) * 3 ≤ 10) :=
  ⟨⟨by norm_num, by norm_num⟩, C8_get_xy ⟨10, 5, fun _ => 0⟩ 7 3 (by norm_num) (by norm_num)⟩

/-- Claim C10: samples stay in the valid 8-bit range — an increment is
only applied to a sample below 255 and a decrement only to a sample
above 0, across the saturation recursion as well, so every sample of
the returned group is still in [0, 255]. -/
theorem C10_range (g : List Int) (t : Int) (hg : ∀ v ∈ g, 0 ≤ v ∧ v ≤ 255)
    (h0 : 0 ≤ t) (h1 : t < 2 * (g.length : Int) + 1) :
    ∀ v ∈ embed g t, 0 ≤ v ∧ v ≤ 255 := by
  unfold embed
  cases hE : embedF (g.length + 1) g t with
  | none => simpa using hg
  | some g' =>
    intro v hv
    exact embedF_range _ _ _ _ hE hg v (by simpa using hv)

/-- Witness for C10 at the group [0, 255] and target 1. -/
theorem C10_witness :
    ((∀ v ∈ ([0, 255] : List Int), 0 ≤ v ∧ v ≤ 255) ∧ (0 : Int) ≤ 1 ∧
      (1 : Int) < 2 * (([0, 255] : List Int).length : Int) + 1) ∧
    (∀ v ∈ embed [0, 255] 1, 0 ≤ v ∧ v ≤ 255) :=
  ⟨⟨by decide, by decide, by decide⟩,
   C10_range [0, 255] 1 (by decide) (by decide) (by decide)⟩
